import Mathlib

set_option maxHeartbeats 1000000

namespace BetterRun

/-! Shallow embedding of the aggregation / categorization / filtering core of
the better-run VS Code extension (`src/sources.ts`, `src/tree.ts` and the
tree-provider revision in `src/unnamed/part_000`).  JavaScript `Map`s are
modelled by insertion-ordered association lists, `vscode.Uri` and
`vscode.WorkspaceFolder` values by their uri strings, and
`string | undefined` by `Option String`. -/

/-- Kind of configuration section a source belongs to (`sources.ts`,
`SectionKind`). -/
inductive SectionKind where
  | launches
  | tasks
  deriving DecidableEq

/-- Provenance record identifying where a group of items came from
(`sources.ts`, `SourceRef`).  The optional `uri` field is determined by `id`
in this codebase and is not repeated here. -/
structure SourceRef where
  id : String
  label : String
  workspaceFolder : Option String
  kind : SectionKind
  isUserSettings : Bool := false
  deriving DecidableEq

/-- A launch configuration item (`sources.ts`, `LaunchItem`); the opaque
`config` payload is not modelled. -/
structure LaunchItem where
  id : String
  name : String
  category : Option String
  workspaceFolder : Option String
  source : SourceRef
  deriving DecidableEq

/-- A task item (`sources.ts`, `TaskItem`); the opaque `userTask` payload is
not modelled. -/
structure TaskItem where
  id : String
  label : String
  category : Option String
  workspaceFolder : Option String
  source : SourceRef
  deriving DecidableEq

/-- A notebook reference (`sources.ts`, `NotebookItem`); the `uri` field is
determined by `id` in this codebase and is not repeated here. -/
structure NotebookItem where
  id : String
  name : String
  workspaceFolder : Option String
  isLocal : Bool := false
  deriving DecidableEq

/-- A category rule (`sources.ts`, `CategoryRule`): ordered list, first regex
match wins. -/
structure CategoryRule where
  category : String
  pattern : String
  deriving DecidableEq

/-- Lookup in an insertion-ordered association list; models `Map.get` /
indexing a plain JS object by key. -/
def alGet {β : Type} : List (String × β) → String → Option β
  | [], _ => none
  | (k', v') :: rest, k => if k' = k then some v' else alGet rest k

/-- Update in an insertion-ordered association list; models `Map.set`: an
existing key keeps its position, a new key is appended at the end. -/
def alSet {β : Type} : List (String × β) → String → β → List (String × β)
  | [], k, v => [(k, v)]
  | (k', v') :: rest, k, v =>
    if k' = k then (k, v) :: rest else (k', v') :: alSet rest k v

/-- Equality of association lists is decidable; registering this instance
keeps instance search on the deeply nested map types small. -/
instance decEqAssocList {β : Type} [DecidableEq β] :
    DecidableEq (List (String × β)) :=
  inferInstance

/-- Get-or-default-then-push; models the recurring JS idiom
`const arr = m.get(k) ?? []; arr.push(x); m.set(k, arr)`. -/
def alPush {β : Type} (m : List (String × List β)) (k : String) (x : β) :
    List (String × List β) :=
  alSet m k (((alGet m k).getD []) ++ [x])

/-- Insertion-ordered set insertion; models `Set.add` on a JS `Set`. -/
def alAddSet (s : List String) (c : String) : List String :=
  if c ∈ s then s else s ++ [c]

/-- Whether the first character list is an initial segment of the second. -/
def startsWithChars : List Char → List Char → Bool
  | [], _ => true
  | _ :: _, [] => false
  | a :: as, b :: bs => a = b && startsWithChars as bs

/-- Whether `sub` occurs contiguously somewhere in the second list. -/
def hasSubChars (sub : List Char) : List Char → Bool
  | [] => startsWithChars sub []
  | c :: rest => startsWithChars sub (c :: rest) || hasSubChars sub rest

/-- Substring containment on the underlying character lists; models JS
`String.prototype.includes`. -/
def jsIncludes (s sub : String) : Bool :=
  hasSubChars sub.toList s.toList

/-- Model of `String.prototype.trim`: strip leading and trailing whitespace
characters (for the ASCII inputs of this development this coincides with the
JS definition). -/
def jsTrim (s : String) : String :=
  String.mk (((s.toList.dropWhile Char.isWhitespace).reverse.dropWhile
    Char.isWhitespace).reverse)

/-- Model of `String.prototype.toLowerCase`, characterwise (which coincides
with the JS definition on ASCII inputs). -/
def jsToLower (s : String) : String :=
  String.mk (s.toList.map Char.toLower)

/-- Regex atom of the modelled pattern fragment: a literal character or `.`
(which is modelled as matching any character). -/
inductive RAtom where
  | lit : Char → RAtom
  | dot : RAtom
  deriving DecidableEq

/-- One pattern piece: an atom, possibly under a postfix `*`. -/
structure RPiece where
  atom : RAtom
  star : Bool
  deriving DecidableEq

/-- Characters outside the modelled regex fragment.  A pattern containing one
of them is modelled as an invalid pattern (in JS, `(`, `)`, `[`, a trailing
`\` and a `*` with nothing to repeat all make `new RegExp` throw; the other
listed metacharacters are conservatively put outside the modelled fragment
as well). -/
def isRegexMeta (c : Char) : Bool :=
  c = '(' || c = ')' || c = '[' || c = ']' || c = '\x7b' || c = '\x7d' ||
  c = '\\' || c = '+' || c = '?' || c = '|' || c = '^' || c = '$' || c = '*'

/-- Parse a pattern string of the modelled fragment (literals, `.`, postfix
`*`) into pieces; `none` models a pattern on which `new RegExp` throws (or
which lies outside the fragment). -/
def parseRegexAux : List Char → Option (List RPiece)
  | [] => some []
  | [c] =>
    if isRegexMeta c then none
    else some [⟨if c = '.' then RAtom.dot else RAtom.lit c, false⟩]
  | c :: c2 :: rest =>
    if isRegexMeta c then none
    else
      let a := if c = '.' then RAtom.dot else RAtom.lit c
      if c2 = '*' then
        match parseRegexAux rest with
        | some ps => some (⟨a, true⟩ :: ps)
        | none => none
      else
        match parseRegexAux (c2 :: rest) with
        | some ps => some (⟨a, false⟩ :: ps)
        | none => none

/-- Whether an atom matches one character, case-insensitively (the `"i"`
flag): literal characters are compared lowercased. -/
def atomMatch : RAtom → Char → Bool
  | RAtom.lit p, c => p.toLower = c.toLower
  | RAtom.dot, _ => true

/-- Match a piece list against a prefix of the character list (the rest of
the input may be arbitrary, as `RegExp.test` is a search, not a full match).
Recursion is bounded by explicit fuel so that the function reduces
definitionally; every recursive call strictly decreases the combined length
of pattern and input, so fuel `ps.length + s.length + 1` never runs out. -/
def matchHereF : Nat → List RPiece → List Char → Bool
  | 0, _, _ => false
  | _ + 1, [], _ => true
  | fuel + 1, p :: ps, s =>
    if p.star then
      matchHereF fuel ps s ||
        (match s with
         | [] => false
         | c :: rest => atomMatch p.atom c && matchHereF fuel (p :: ps) rest)
    else
      match s with
      | [] => false
      | c :: rest => atomMatch p.atom c && matchHereF fuel ps rest

/-- Match a piece list against a prefix of the character list, with
sufficient fuel. -/
def matchHere (ps : List RPiece) (s : List Char) : Bool :=
  matchHereF (ps.length + s.length + 1) ps s

/-- Search for a match starting at every position of the input. -/
def searchFrom (ps : List RPiece) : List Char → Bool
  | [] => matchHere ps []
  | c :: rest => matchHere ps (c :: rest) || searchFrom ps rest

/-- Model of `new RegExp(pattern, "i").test(label)` on the modelled pattern
fragment: `none` when construction throws (the rule is then skipped by the
categorizer), otherwise `some` of the test result. -/
def jsRegexTestI (pattern label : String) : Option Bool :=
  match parseRegexAux pattern.toList with
  | some ps => some (searchFrom ps label.toList)
  | none => none

/-- Translation of the fallback `label.match(/^([^:]+):\s*/)` followed by
`if (m?.[1]) return m[1].trim()` in `resolveTaskCategory` /
`resolveLaunchCategory` (`sources.ts` lines 164–168 and 184–188): the regex
matches exactly when the label's first colon exists and is not at position 0,
and then captures the (necessarily nonempty) text before that colon, whose
trim is returned; `\s*` always matches. -/
def prefixCategory (label : String) : Option String :=
  match label.toList.findIdx? (fun c => c = ':') with
  | some i => if 0 < i then some (jsTrim (String.mk (label.toList.take i))) else none
  | none => none

/-- The rules loop of `resolveTaskCategory` / `resolveLaunchCategory`
(`sources.ts` lines 155–162 and 175–182): the first rule whose regex compiles
and matches wins and its `category` is returned as-is; a rule whose pattern
does not compile is skipped. -/
def firstRuleMatch (label : String) : List CategoryRule → Option String
  | [] => none
  | r :: rs =>
    match jsRegexTestI r.pattern label with
    | some true => some r.category
    | _ => firstRuleMatch label rs

/-- Translation of `resolveTaskCategory` (`sources.ts` lines 151–169).  The
exact-map step `if (exact && exact.trim()) return exact.trim()` requires the
entry to be present, nonempty and with nonempty trim. -/
def resolveTaskCategory (label : String) (rules : List CategoryRule)
    (byLabel : List (String × String)) : Option String :=
  match alGet byLabel label with
  | some exact =>
    if exact ≠ "" ∧ jsTrim exact ≠ "" then some (jsTrim exact)
    else
      match firstRuleMatch label rules with
      | some c => some c
      | none => prefixCategory label
  | none =>
    match firstRuleMatch label rules with
    | some c => some c
    | none => prefixCategory label

/-- Translation of `resolveLaunchCategory` (`sources.ts` lines 171–189),
whose body is identical to `resolveTaskCategory` with `label` renamed to
`name`. -/
def resolveLaunchCategory (name : String) (rules : List CategoryRule)
    (byLabel : List (String × String)) : Option String :=
  match alGet byLabel name with
  | some exact =>
    if exact ≠ "" ∧ jsTrim exact ≠ "" then some (jsTrim exact)
    else
      match firstRuleMatch name rules with
      | some c => some c
      | none => prefixCategory name
  | none =>
    match firstRuleMatch name rules with
    | some c => some c
    | none => prefixCategory name

/-- The sentinel workspace key for user/local items (`USER_WORKSPACE_KEY` in
the tree providers). -/
def USER_WORKSPACE_KEY : String := "ws::user"

/-- Translation of `workspaceKeyFromFolder` (part_000 lines 31–33, `tree.ts`
lines 22–24): a workspace folder is keyed by `ws::` followed by its uri
string; no folder maps to the user sentinel key. -/
def workspaceKeyFromFolder (wf : Option String) : String :=
  match wf with
  | some u => "ws::" ++ u
  | none => USER_WORKSPACE_KEY

/-- Category normalization used by the `refresh` aggregation loops:
`const category = (x.category && x.category.trim()) ? x.category.trim() :
undefined` (part_000 lines 213 and 285, `tree.ts` line 170). -/
def normCat (c : Option String) : Option String :=
  match c with
  | some s => if s ≠ "" ∧ jsTrim s ≠ "" then some (jsTrim s) else none
  | none => none

/-- Projections of the item fields used by the aggregation loops of
`refresh`.  The launch loop (part_000 lines 211–238) and the task loop
(part_000 lines 283–308) are one and the same algorithm applied to
`LaunchItem` (display key `name`) and `TaskItem` (display key `label`). -/
structure ItemView (α : Type) where
  wfOf : α → Option String
  catOf : α → Option String
  srcOf : α → SourceRef
  keyOf : α → String

/-- The `ItemView` of the task aggregation loop. -/
def taskView : ItemView TaskItem :=
  ⟨fun t => t.workspaceFolder, fun t => t.category, fun t => t.source,
   fun t => t.label⟩

/-- The `ItemView` of the launch aggregation loop. -/
def launchView : ItemView LaunchItem :=
  ⟨fun l => l.workspaceFolder, fun l => l.category, fun l => l.source,
   fun l => l.name⟩

/-- Nested map type `workspaceKey -> category -> sourceId -> β`, modelled as
nested insertion-ordered association lists. -/
abbrev Nest3 (β : Type) := List (String × List (String × List (String × β)))

/-- The get-or-create-then-push idiom on a three-level nested map, as in
part_000 lines 232–237 and 302–307: look up (defaulting to an empty map) at
each level, append the item to the innermost array, and write the maps back
(`Map.set` keeps the position of an existing key). -/
def nestedPushItem {α : Type} (m : Nest3 (List α)) (wk c s : String) (x : α) :
    Nest3 (List α) :=
  let catMap := (alGet m wk).getD []
  let srcMap := (alGet catMap c).getD []
  let arr := (alGet srcMap s).getD []
  alSet m wk (alSet catMap c (alSet srcMap s (arr ++ [x])))

/-- The get-or-create-then-set idiom for the `sources by category` nested map
(part_000 lines 227–230 and 297–300). -/
def nestedSetSource (m : Nest3 SourceRef) (wk c s : String) (src : SourceRef) :
    Nest3 SourceRef :=
  let catMap := (alGet m wk).getD []
  let srcMap := (alGet catMap c).getD []
  alSet m wk (alSet catMap c (alSet srcMap s src))

/-- The state accumulated by one aggregation loop of `refresh`: top-level
items per workspace, the category set per workspace, the contributing source
per (workspace, category, source id), and the items per
(workspace, category, source id). -/
structure AggAcc (α : Type) where
  top : List (String × List α)
  cats : List (String × List String)
  catSources : Nest3 SourceRef
  byWkCatSrc : Nest3 (List α)
  deriving DecidableEq

/-- One iteration of the aggregation loop of `refresh` (part_000 lines
211–238 for launches, 283–308 for tasks): an item whose normalized category
is absent goes to the top-level bucket of its workspace key; otherwise the
category is recorded, the item's source is recorded under
(workspace, category, source id), and the item is pushed into the
(workspace, category, source id) bucket. -/
def aggStep {α : Type} (v : ItemView α) (st : AggAcc α) (x : α) : AggAcc α :=
  let wk := workspaceKeyFromFolder (v.wfOf x)
  match normCat (v.catOf x) with
  | none => { st with top := alPush st.top wk x }
  | some c =>
    { st with
      cats := alSet st.cats wk (alAddSet ((alGet st.cats wk).getD []) c),
      catSources := nestedSetSource st.catSources wk c (v.srcOf x).id (v.srcOf x),
      byWkCatSrc := nestedPushItem st.byWkCatSrc wk c (v.srcOf x).id x }

/-- A whole aggregation loop of `refresh`, starting from the freshly cleared
maps. -/
def aggregate {α : Type} (v : ItemView α) (items : List α) : AggAcc α :=
  items.foldl (aggStep v) ⟨[], [], [], []⟩

/-- The keep-order relation of a JS sort comparator built from
`a.localeCompare(b)`-style comparisons: the pair `(a, b)` keeps its order
exactly when the comparator does not return a positive number. -/
def lcLe (lc : String → String → Ordering) (a b : String) : Bool :=
  match lc a b with
  | Ordering.gt => false
  | _ => true

/-- Model of `Array.prototype.sort` with a consistent comparator: a stable
sort of the array by the comparator's keep-order relation. -/
def jsSortBy {α : Type} (le : α → α → Bool) (xs : List α) : List α :=
  List.insertionSort (fun a b => le a b = true) xs

/-- Map over the values of an association list, keeping keys and order. -/
def mapSnd {β γ : Type} (f : β → γ) (m : List (String × β)) :
    List (String × γ) :=
  m.map (fun p => (p.1, f p.2))

/-- The per-workspace structures stored by `refresh` after its sorting
passes: sorted top-level items, sorted category name arrays, sorted source
arrays per (workspace, category), and the nested item buckets with each
innermost array sorted. -/
structure AggOut (α : Type) where
  top : List (String × List α)
  cats : List (String × List String)
  catSources : List (String × List (String × List SourceRef))
  byWkCatSrc : Nest3 (List α)
  deriving DecidableEq

/-- The sorting passes of `refresh` over one aggregation state (part_000
lines 240–270 for launches and 309–335 for tasks): top-level items are
sorted by display key, category sets become arrays sorted by the comparator,
the source maps become arrays of their values sorted by source label, and
each (workspace, category, source) item array is sorted by display key.
`lc` is the string comparator (`localeCompare` in the code). -/
def finalize {α : Type} (lc : String → String → Ordering) (key : α → String)
    (st : AggAcc α) : AggOut α :=
  { top := mapSnd (jsSortBy (fun a b => lcLe lc (key a) (key b))) st.top,
    cats := mapSnd (jsSortBy (lcLe lc)) st.cats,
    catSources := mapSnd (mapSnd (fun srcMap =>
      jsSortBy (fun a b => lcLe lc a.label b.label)
        (srcMap.map (fun q => q.2)))) st.catSources,
    byWkCatSrc := mapSnd (mapSnd (mapSnd
      (jsSortBy (fun a b => lcLe lc (key a) (key b))))) st.byWkCatSrc }

/-- Lookup of a workspace's top-level bucket, with the `?? []` default used
by every reader in the providers. -/
def topLookup {α : Type} (m : List (String × List α)) (wk : String) : List α :=
  (alGet m wk).getD []

/-- Lookup of a (workspace, category, source id) bucket with the
`?? new Map()` defaults used by every reader in the providers. -/
def nestedLookup {α : Type} (m : Nest3 (List α)) (wk c s : String) : List α :=
  (alGet ((alGet ((alGet m wk).getD []) c).getD []) s).getD []

/-- Translation of the per-category children computation of `getChildren`
(part_000 lines 535–555 for launches and 593–613 for tasks): flatten the
category's per-source arrays in map order, apply the name filter when one is
set, and sort by display key. -/
def categoryChildren {α : Type} (lc : String → String → Ordering)
    (key : α → String) (byWkCatSrc : Nest3 (List α))
    (wk c filterLower : String) : List α :=
  let catMap := (alGet byWkCatSrc wk).getD []
  let srcMap := (alGet catMap c).getD []
  let all := (srcMap.map (fun q => q.2)).flatten
  let all2 :=
    if filterLower = "" then all
    else all.filter (fun x => jsIncludes (jsToLower (key x)) filterLower)
  jsSortBy (fun a b => lcLe lc (key a) (key b)) all2

/-- The fields of the part_000 tree provider consulted by the filter layer. -/
structure TreeState where
  topLevelLaunchesByWorkspace : List (String × List LaunchItem)
  launchesByWorkspaceCategorySource : Nest3 (List LaunchItem)
  topLevelTasksByWorkspace : List (String × List TaskItem)
  tasksByWorkspaceCategorySource : Nest3 (List TaskItem)
  notebooksByWorkspace : List (String × List NotebookItem)
  deriving DecidableEq

/-- Translation of `workspaceHasLaunchMatches` (part_000 lines 122–140):
true on an empty filter, otherwise a match among the workspace's top-level
launches or among its categorized launches. -/
def workspaceHasLaunchMatches (st : TreeState) (workspaceKey filterLower : String) :
    Bool :=
  if filterLower = "" then true
  else
    let topLaunches := (alGet st.topLevelLaunchesByWorkspace workspaceKey).getD []
    if topLaunches.any (fun i => jsIncludes (jsToLower i.name) filterLower) then true
    else
      let catLaunches := (alGet st.launchesByWorkspaceCategorySource workspaceKey).getD []
      catLaunches.any (fun p =>
        p.2.any (fun q => q.2.any (fun i => jsIncludes (jsToLower i.name) filterLower)))

/-- Translation of `workspaceHasMatches` (part_000 lines 102–120): true on an
empty filter, otherwise a launch match, or a task match scanned over
`tasksByWorkspaceCategorySource` only, or a notebook match. -/
def workspaceHasMatches (st : TreeState) (workspaceKey filterLower : String) :
    Bool :=
  if filterLower = "" then true
  else
    let hasLaunchMatch := workspaceHasLaunchMatches st workspaceKey filterLower
    let catTasks := (alGet st.tasksByWorkspaceCategorySource workspaceKey).getD []
    let hasTaskMatch := catTasks.any (fun p =>
      p.2.any (fun q => q.2.any (fun t => jsIncludes (jsToLower t.label) filterLower)))
    let notebooks := (alGet st.notebooksByWorkspace workspaceKey).getD []
    let hasNotebookMatch := notebooks.any (fun n => jsIncludes (jsToLower n.name) filterLower)
    hasLaunchMatch || hasTaskMatch || hasNotebookMatch

/-- The notebook grouping of `refresh` (part_000 lines 172–184): local
notebooks go to the user sentinel key, others to their workspace folder key;
each workspace's array is then sorted by name. -/
def groupNotebooks (lc : String → String → Ordering)
    (notebooks : List NotebookItem) : List (String × List NotebookItem) :=
  mapSnd (jsSortBy (fun a b => lcLe lc a.name b.name))
    (notebooks.foldl (fun m nb =>
      alPush m
        (if nb.isLocal then USER_WORKSPACE_KEY
         else workspaceKeyFromFolder nb.workspaceFolder) nb) [])

/-- The derived state of one `refresh` pass of the part_000 provider, as far
as the filter layer consults it: both aggregation loops followed by their
sorting passes, plus the notebook grouping. -/
def refreshModel (lc : String → String → Ordering)
    (launches : List LaunchItem) (tasks : List TaskItem)
    (notebooks : List NotebookItem) : TreeState :=
  let la := finalize lc (fun l => l.name) (aggregate launchView launches)
  let ta := finalize lc (fun t => t.label) (aggregate taskView tasks)
  { topLevelLaunchesByWorkspace := la.top,
    launchesByWorkspaceCategorySource := la.byWkCatSrc,
    topLevelTasksByWorkspace := ta.top,
    tasksByWorkspaceCategorySource := ta.byWkCatSrc,
    notebooksByWorkspace := groupNotebooks lc notebooks }

/-- A raw entry of a workspace `launch.json` `configurations` array
(`sources.ts` lines 249–256): only the fields the loader reads are modelled;
`String(c?.name ?? "")` is modelled by defaulting an absent name to `""`. -/
structure RawLaunch where
  name : Option String
  category : Option String
  deriving DecidableEq

/-- A raw entry of a workspace `tasks.json` `tasks` array (`sources.ts`
lines 284–286): the loader only reads its `label`. -/
structure RawTask where
  label : Option String
  deriving DecidableEq

/-- The `SourceRef` built for a workspace `launch.json` document
(`sources.ts` lines 240–246); the uri
`vscode.Uri.joinPath(wf.uri, ".vscode", "launch.json")` is modelled by
string concatenation on the folder's uri string. -/
def mkLaunchSource (wf : String) : SourceRef :=
  { id := "launch::" ++ wf ++ "/.vscode/launch.json",
    label := "launch.json",
    workspaceFolder := some wf,
    kind := SectionKind.launches }

/-- The `SourceRef` built for a workspace `tasks.json` document
(`sources.ts` lines 275–281). -/
def mkTaskSource (wf : String) : SourceRef :=
  { id := "task::" ++ wf ++ "/.vscode/tasks.json",
    label := "tasks.json",
    workspaceFolder := some wf,
    kind := SectionKind.tasks }

/-- The trimmed name of a raw launch entry: `String(c?.name ?? "").trim()`. -/
def launchEntryName (c : RawLaunch) : String :=
  jsTrim (c.name.getD "")

/-- The category of a raw launch entry (`sources.ts` lines 253–256): the
explicit `category` field when present with nonempty trim, otherwise
`resolveLaunchCategory`. -/
def launchEntryCategory (c : RawLaunch) (name : String)
    (rules : List CategoryRule) (byLabel : List (String × String)) :
    Option String :=
  match c.category with
  | some cat =>
    if cat ≠ "" ∧ jsTrim cat ≠ "" then some (jsTrim cat)
    else resolveLaunchCategory name rules byLabel
  | none => resolveLaunchCategory name rules byLabel

/-- The `LaunchItem` built from one surviving raw entry of a workspace
document, or `none` when the entry is dropped by the
`if (!name) continue` check (`sources.ts` lines 249–265). -/
def mkLaunchItem (rules : List CategoryRule) (byLabel : List (String × String))
    (wf : String) (c : RawLaunch) : Option LaunchItem :=
  let name := launchEntryName c
  if name = "" then none
  else
    some
      { id := (mkLaunchSource wf).id ++ "::" ++ name,
        name := name,
        category := launchEntryCategory c name rules byLabel,
        workspaceFolder := some wf,
        source := mkLaunchSource wf }

/-- The `TaskItem` built from one surviving raw entry of a workspace
document, or `none` when the entry is dropped (`sources.ts` lines
284–297). -/
def mkTaskItem (rules : List CategoryRule) (byLabel : List (String × String))
    (wf : String) (t : RawTask) : Option TaskItem :=
  let label := jsTrim (t.label.getD "")
  if label = "" then none
  else
    some
      { id := (mkTaskSource wf).id ++ "::" ++ label,
        label := label,
        category := resolveTaskCategory label rules byLabel,
        workspaceFolder := some wf,
        source := mkTaskSource wf }

/-- The workspace `launch.json` loop of `loadLaunchesAndTasks` (`sources.ts`
lines 236–268).  Each workspace folder carries the result of reading and
parsing its document: `none` when the read/parse failed or
`json.configurations` is not an array (the document then contributes
nothing), `some configs` otherwise.  When the document parsed, its
`SourceRef` is pushed before the entries are scanned, and each surviving
entry is pushed referencing that source. -/
def loadWorkspaceLaunches (rules : List CategoryRule)
    (byLabel : List (String × String))
    (wfs : List (String × Option (List RawLaunch))) :
    List SourceRef × List LaunchItem :=
  wfs.foldl (fun acc p =>
    match p.2 with
    | none => acc
    | some configs =>
      (acc.1 ++ [mkLaunchSource p.1],
       acc.2 ++ configs.filterMap (mkLaunchItem rules byLabel p.1))) ([], [])

/-- The workspace `tasks.json` loop of `loadLaunchesAndTasks` (`sources.ts`
lines 271–299), structured exactly like the launch loop. -/
def loadWorkspaceTasks (rules : List CategoryRule)
    (byLabel : List (String × String))
    (wfs : List (String × Option (List RawTask))) :
    List SourceRef × List TaskItem :=
  wfs.foldl (fun acc p =>
    match p.2 with
    | none => acc
    | some ts =>
      (acc.1 ++ [mkTaskSource p.1],
       acc.2 ++ ts.filterMap (mkTaskItem rules byLabel p.1))) ([], [])

/-! ### Association-list lemmas -/

theorem alGet_alSet {β : Type} (m : List (String × β)) (k k' : String) (v : β) :
    alGet (alSet m k v) k' = if k = k' then some v else alGet m k' := by
  induction m with
  | nil => simp [alSet, alGet]
  | cons p rest ih =>
    obtain ⟨k₀, v₀⟩ := p
    by_cases h1 : k₀ = k
    · subst h1
      by_cases h2 : k₀ = k'
      · subst h2; simp [alSet, alGet]
      · simp [alSet, alGet, h2]
    · by_cases h2 : k₀ = k'
      · subst h2
        simp [alSet, alGet, h1, Ne.symm h1]
      · simp [alSet, alGet, h1, h2, ih]

theorem topLookup_alPush {β : Type} (m : List (String × List β)) (k k' : String)
    (x : β) :
    topLookup (alPush m k x) k' =
      if k = k' then topLookup m k ++ [x] else topLookup m k' := by
  unfold topLookup alPush
  rw [alGet_alSet]
  split <;> simp_all

/-- Flatten the values of an association list through a value-flattening
function; the multiset of leaves of a nested map. -/
def flattenWith {β γ : Type} (g : β → List γ) (m : List (String × β)) : List γ :=
  (m.map (fun p => g p.2)).flatten

theorem flattenWith_nil {β γ : Type} (g : β → List γ) : flattenWith g [] = [] := rfl

theorem flattenWith_cons {β γ : Type} (g : β → List γ) (k : String) (v : β)
    (rest : List (String × β)) :
    flattenWith g ((k, v) :: rest) = g v ++ flattenWith g rest := rfl

theorem flattenWith_alSet_perm {β γ : Type} (g : β → List γ)
    (m : List (String × β)) (k : String) (v : β) (x : γ) (e : β)
    (hv : (g v).Perm (x :: g ((alGet m k).getD e))) (he : g e = []) :
    (flattenWith g (alSet m k v)).Perm (x :: flattenWith g m) := by
  induction m with
  | nil =>
    have h0 : g ((alGet ([] : List (String × β)) k).getD e) = [] := by
      simp [alGet, he]
    rw [h0] at hv
    simpa [alSet, flattenWith] using hv
  | cons p rest ih =>
    obtain ⟨k₀, v₀⟩ := p
    by_cases h : k₀ = k
    · subst h
      have hv' : (g v).Perm (x :: g v₀) := by simpa [alGet] using hv
      have : alSet ((k₀, v₀) :: rest) k₀ v = (k₀, v) :: rest := by simp [alSet]
      rw [this, flattenWith_cons, flattenWith_cons]
      exact (hv'.append_right _).trans (List.Perm.refl _)
    · have hrec : (flattenWith g (alSet rest k v)).Perm (x :: flattenWith g rest) := by
        apply ih
        simpa [alGet, h] using hv
      have hset : alSet ((k₀, v₀) :: rest) k v = (k₀, v₀) :: alSet rest k v := by
        simp [alSet, h]
      rw [hset, flattenWith_cons, flattenWith_cons]
      exact ((hrec.append_left (g v₀)).trans List.perm_middle)

/-! ### Partition of the aggregation (claim C2 machinery) -/

/-- All leaves of one accumulated aggregation state: the top-level buckets
followed by the (workspace, category, source) buckets. -/
def aggItems {α : Type} (st : AggAcc α) : List α :=
  flattenWith id st.top ++ flattenWith (flattenWith (flattenWith id)) st.byWkCatSrc

/-- All leaves of one finalized aggregation state. -/
def aggItemsOut {α : Type} (st : AggOut α) : List α :=
  flattenWith id st.top ++ flattenWith (flattenWith (flattenWith id)) st.byWkCatSrc

theorem flatten3_nestedPushItem_perm {α : Type} (m : Nest3 (List α))
    (wk c s : String) (x : α) :
    (flattenWith (flattenWith (flattenWith id)) (nestedPushItem m wk c s x)).Perm
      (x :: flattenWith (flattenWith (flattenWith id)) m) := by
  simp only [nestedPushItem]
  apply flattenWith_alSet_perm _ _ _ _ _ []
  · apply flattenWith_alSet_perm _ _ _ _ _ []
    · apply flattenWith_alSet_perm _ _ _ _ _ []
      · simp only [Option.getD_none, id_eq]
        exact List.perm_append_singleton x _
      · rfl
    · rfl
  · rfl

theorem flattenWith_alPush_perm {β : Type} (m : List (String × List β))
    (k : String) (x : β) :
    (flattenWith id (alPush m k x)).Perm (x :: flattenWith id m) := by
  unfold alPush
  apply flattenWith_alSet_perm _ _ _ _ _ []
  · simp only [id_eq]
    exact List.perm_append_singleton x _
  · rfl

theorem aggItems_aggStep_perm {α : Type} (v : ItemView α) (st : AggAcc α)
    (x : α) : (aggItems (aggStep v st x)).Perm (x :: aggItems st) := by
  cases hnc : normCat (v.catOf x) with
  | none =>
    simp only [aggStep, hnc, aggItems]
    exact (flattenWith_alPush_perm st.top _ x).append_right _
  | some c =>
    simp only [aggStep, hnc, aggItems]
    exact ((flatten3_nestedPushItem_perm st.byWkCatSrc _ c _ x).append_left
      _).trans List.perm_middle

theorem aggItems_foldl_perm {α : Type} (v : ItemView α) (items : List α) :
    ∀ st : AggAcc α,
      (aggItems (List.foldl (aggStep v) st items)).Perm (items ++ aggItems st) := by
  induction items with
  | nil => intro st; simp
  | cons x xs ih =>
    intro st
    have h1 := ih (aggStep v st x)
    have h2 : (xs ++ aggItems (aggStep v st x)).Perm (xs ++ (x :: aggItems st)) :=
      (aggItems_aggStep_perm v st x).append_left xs
    exact ((h1.trans h2).trans List.perm_middle)

theorem aggItems_aggregate_perm {α : Type} (v : ItemView α) (items : List α) :
    (aggItems (aggregate v items)).Perm items := by
  have h := aggItems_foldl_perm v items ⟨[], [], [], []⟩
  simpa [aggItems, flattenWith] using h

theorem flattenWith_mapSnd_perm {β γ δ : Type} (g : γ → List δ) (f : β → γ)
    (g₀ : β → List δ) (h : ∀ b, (g (f b)).Perm (g₀ b)) (m : List (String × β)) :
    (flattenWith g (mapSnd f m)).Perm (flattenWith g₀ m) := by
  induction m with
  | nil => exact List.Perm.refl _
  | cons p rest ih => exact (h p.2).append ih

theorem aggItemsOut_finalize_perm {α : Type} (lc : String → String → Ordering)
    (key : α → String) (st : AggAcc α) :
    (aggItemsOut (finalize lc key st)).Perm (aggItems st) := by
  unfold aggItemsOut finalize aggItems
  apply List.Perm.append
  · apply flattenWith_mapSnd_perm
    intro b
    simpa [jsSortBy] using List.perm_insertionSort _ b
  · apply flattenWith_mapSnd_perm
    intro b
    apply flattenWith_mapSnd_perm
    intro b2
    apply flattenWith_mapSnd_perm
    intro b3
    simpa [jsSortBy] using List.perm_insertionSort _ b3

theorem nestedLookup_nestedPushItem {α : Type} (m : Nest3 (List α))
    (wk c s wk' c' s' : String) (x : α) :
    nestedLookup (nestedPushItem m wk c s x) wk' c' s' =
      if wk = wk' ∧ c = c' ∧ s = s' then nestedLookup m wk c s ++ [x]
      else nestedLookup m wk' c' s' := by
  simp only [nestedPushItem, nestedLookup]
  rw [alGet_alSet]
  by_cases h1 : wk = wk'
  · subst h1
    simp only [eq_self_iff_true, if_true, true_and, Option.getD_some]
    rw [alGet_alSet]
    by_cases h2 : c = c'
    · subst h2
      simp only [eq_self_iff_true, if_true, true_and, Option.getD_some]
      rw [alGet_alSet]
      by_cases h3 : s = s'
      · subst h3; simp
      · simp [h3]
    · simp [h2]
  · simp [h1]

theorem aggStep_of_normCat_none {α : Type} (v : ItemView α) (st : AggAcc α)
    (y : α) (h : normCat (v.catOf y) = none) :
    aggStep v st y =
      { st with top := alPush st.top (workspaceKeyFromFolder (v.wfOf y)) y } := by
  simp only [aggStep, h]

theorem aggStep_of_normCat_some {α : Type} (v : ItemView α) (st : AggAcc α)
    (y : α) (c : String) (h : normCat (v.catOf y) = some c) :
    aggStep v st y =
      { st with
        cats := alSet st.cats (workspaceKeyFromFolder (v.wfOf y))
          (alAddSet ((alGet st.cats (workspaceKeyFromFolder (v.wfOf y))).getD []) c),
        catSources := nestedSetSource st.catSources
          (workspaceKeyFromFolder (v.wfOf y)) c (v.srcOf y).id (v.srcOf y),
        byWkCatSrc := nestedPushItem st.byWkCatSrc
          (workspaceKeyFromFolder (v.wfOf y)) c (v.srcOf y).id y } := by
  simp only [aggStep, h]

theorem aggregate_foldl_consistent {α : Type} (v : ItemView α) (items : List α) :
    ∀ st : AggAcc α,
      (∀ wk x, x ∈ topLookup st.top wk →
        workspaceKeyFromFolder (v.wfOf x) = wk ∧ normCat (v.catOf x) = none) →
      (∀ wk c s x, x ∈ nestedLookup st.byWkCatSrc wk c s →
        workspaceKeyFromFolder (v.wfOf x) = wk ∧ normCat (v.catOf x) = some c ∧
          (v.srcOf x).id = s) →
      (∀ wk x, x ∈ topLookup (List.foldl (aggStep v) st items).top wk →
        workspaceKeyFromFolder (v.wfOf x) = wk ∧ normCat (v.catOf x) = none) ∧
      (∀ wk c s x, x ∈ nestedLookup (List.foldl (aggStep v) st items).byWkCatSrc wk c s →
        workspaceKeyFromFolder (v.wfOf x) = wk ∧ normCat (v.catOf x) = some c ∧
          (v.srcOf x).id = s) := by
  induction items with
  | nil => intro st h1 h2; exact ⟨h1, h2⟩
  | cons y ys ih =>
    intro st h1 h2
    simp only [List.foldl_cons]
    cases hnc : normCat (v.catOf y) with
    | none =>
      rw [aggStep_of_normCat_none v st y hnc]
      apply ih
      · intro wk x hx
        simp only [topLookup_alPush] at hx
        by_cases heq : workspaceKeyFromFolder (v.wfOf y) = wk
        · rw [if_pos heq] at hx
          rcases List.mem_append.mp hx with hold | hnew
          · exact heq ▸ h1 _ x hold
          · rcases List.mem_singleton.mp hnew with rfl
            exact ⟨heq, hnc⟩
        · rw [if_neg heq] at hx
          exact h1 wk x hx
      · intro wk c s x hx
        exact h2 wk c s x hx
    | some c0 =>
      rw [aggStep_of_normCat_some v st y c0 hnc]
      apply ih
      · intro wk x hx
        exact h1 wk x hx
      · intro wk c s x hx
        simp only [nestedLookup_nestedPushItem] at hx
        by_cases heq : workspaceKeyFromFolder (v.wfOf y) = wk ∧ c0 = c ∧
            (v.srcOf y).id = s
        · rw [if_pos heq] at hx
          obtain ⟨e1, e2, e3⟩ := heq
          subst e1; subst e2; subst e3
          rcases List.mem_append.mp hx with hold | hnew
          · exact h2 _ _ _ x hold
          · rcases List.mem_singleton.mp hnew with rfl
            exact ⟨rfl, hnc, rfl⟩
        · rw [if_neg heq] at hx
          exact h2 wk c s x hx

theorem topLookup_init {α : Type} (wk : String) :
    topLookup (AggAcc.top (α := α) ⟨[], [], [], []⟩) wk = [] := rfl

theorem nestedLookup_init {α : Type} (wk c s : String) :
    nestedLookup (AggAcc.byWkCatSrc (α := α) ⟨[], [], [], []⟩) wk c s = [] := rfl

theorem alGet_mapSnd {β γ : Type} (f : β → γ) (m : List (String × β))
    (k : String) : alGet (mapSnd f m) k = (alGet m k).map f := by
  induction m with
  | nil => simp [mapSnd, alGet]
  | cons p rest ih =>
    by_cases h : p.1 = k
    · simp [mapSnd, alGet, h]
    · simp only [mapSnd] at ih
      simp [mapSnd, alGet, h, ih]

theorem jsSortBy_nil {α : Type} (le : α → α → Bool) : jsSortBy le [] = [] := rfl

theorem topLookup_finalize {α : Type} (lc : String → String → Ordering)
    (key : α → String) (st : AggAcc α) (wk : String) :
    topLookup (finalize lc key st).top wk =
      jsSortBy (fun a b => lcLe lc (key a) (key b)) (topLookup st.top wk) := by
  unfold topLookup finalize
  rw [alGet_mapSnd]
  cases alGet st.top wk <;> simp [jsSortBy_nil]

theorem nestedLookup_finalize {α : Type} (lc : String → String → Ordering)
    (key : α → String) (st : AggAcc α) (wk c s : String) :
    nestedLookup (finalize lc key st).byWkCatSrc wk c s =
      jsSortBy (fun a b => lcLe lc (key a) (key b))
        (nestedLookup st.byWkCatSrc wk c s) := by
  unfold nestedLookup finalize
  rw [alGet_mapSnd]
  cases alGet st.byWkCatSrc wk with
  | none => simp [alGet, jsSortBy_nil]
  | some catMap =>
    simp only [Option.map_some', Option.getD_some]
    rw [alGet_mapSnd]
    cases alGet catMap c with
    | none => simp [alGet, jsSortBy_nil]
    | some srcMap =>
      simp only [Option.map_some', Option.getD_some]
      rw [alGet_mapSnd]
      cases alGet srcMap s <;> simp [jsSortBy_nil]

theorem mem_jsSortBy {α : Type} (le : α → α → Bool) (xs : List α) (x : α) :
    x ∈ jsSortBy le xs ↔ x ∈ xs := by
  simp only [jsSortBy]
  exact List.mem_insertionSort (fun a b => le a b = true)

/-! ### Concrete fixtures used by witnesses and counterexamples -/

/-- A constant comparator; any consistent comparator is admissible for the
generic sorting statements. -/
def lcConst : String → String → Ordering := fun _ _ => Ordering.lt

/-- The task source of workspace folder `w`. -/
def wsrc : SourceRef := mkTaskSource "w"

/-- A task with no category (top-level). -/
def tTop : TaskItem :=
  ⟨"task::w/.vscode/tasks.json::alpha", "alpha", none, some "w", wsrc⟩

/-- A task with category `Build`. -/
def tCat : TaskItem :=
  ⟨"task::w/.vscode/tasks.json::Build: x", "Build: x", some "Build", some "w", wsrc⟩

/-- A task with a whitespace-only category. -/
def tWs : TaskItem :=
  ⟨"task::w/.vscode/tasks.json::spaced", "spaced", some "  ", some "w", wsrc⟩

/-- A task with no category field at all. -/
def tNone : TaskItem :=
  ⟨"task::w/.vscode/tasks.json::bare", "bare", none, some "w", wsrc⟩

/-! ### Claim C2 -/

/-- C2: for every list of loaded items, the aggregation performed by
`refresh` (modelled by `aggregate` followed by the sorting passes
`finalize`, for both the launch and the task instance of `ItemView`) is a
strict partition: the leaves of the produced buckets are a permutation of
the input list (no item duplicated or lost), every member of a workspace's
top-level bucket belongs to that workspace key and has an absent/empty
trimmed category, and every member of a (workspace, category, source id)
bucket carries exactly those three keys — so each item lies in exactly the
one bucket determined by its own keys. -/
theorem C2_refresh_aggregation_strict_partition {α : Type}
    (v : ItemView α) (lc : String → String → Ordering) (items : List α) :
    (aggItemsOut (finalize lc v.keyOf (aggregate v items))).Perm items ∧
    (∀ wk x, x ∈ topLookup (finalize lc v.keyOf (aggregate v items)).top wk →
      workspaceKeyFromFolder (v.wfOf x) = wk ∧ normCat (v.catOf x) = none) ∧
    (∀ wk c s x,
      x ∈ nestedLookup (finalize lc v.keyOf (aggregate v items)).byWkCatSrc wk c s →
      workspaceKeyFromFolder (v.wfOf x) = wk ∧ normCat (v.catOf x) = some c ∧
        (v.srcOf x).id = s) := by
  have hperm := (aggItemsOut_finalize_perm lc v.keyOf (aggregate v items)).trans
    (aggItems_aggregate_perm v items)
  have hcons := aggregate_foldl_consistent v items ⟨[], [], [], []⟩
    (by intro wk x hx; simp [topLookup, alGet] at hx)
    (by intro wk c s x hx; simp [nestedLookup, alGet] at hx)
  refine ⟨hperm, ?_, ?_⟩
  · intro wk x hx
    rw [topLookup_finalize, mem_jsSortBy] at hx
    exact hcons.1 wk x (by simpa [aggregate] using hx)
  · intro wk c s x hx
    rw [nestedLookup_finalize, mem_jsSortBy] at hx
    exact hcons.2 wk c s x (by simpa [aggregate] using hx)

/-- Witness for C2 at a concrete two-item input: one top-level task and one
categorized task. -/
theorem C2_refresh_aggregation_strict_partition_witness :
    (aggItemsOut (finalize lcConst taskView.keyOf
      (aggregate taskView [tTop, tCat]))).Perm [tTop, tCat] ∧
    (workspaceKeyFromFolder (taskView.wfOf tTop) = "ws::w" ∧
      normCat (taskView.catOf tTop) = none) ∧
    (workspaceKeyFromFolder (taskView.wfOf tCat) = "ws::w" ∧
      normCat (taskView.catOf tCat) = some "Build" ∧
      (taskView.srcOf tCat).id = "task::w/.vscode/tasks.json") :=
  ⟨(C2_refresh_aggregation_strict_partition taskView lcConst [tTop, tCat]).1,
   (C2_refresh_aggregation_strict_partition taskView lcConst [tTop, tCat]).2.1
     "ws::w" tTop (by decide),
   (C2_refresh_aggregation_strict_partition taskView lcConst [tTop, tCat]).2.2
     "ws::w" "Build" "task::w/.vscode/tasks.json" tCat (by decide)⟩

/-! ### Claim C9 -/

/-- C9: an item whose category is a whitespace-only string is aggregated
identically to an item with no category at all: in both cases the
aggregation step places the item in its workspace's top-level list and
leaves the category sets, the category source maps and the
category-and-source buckets untouched. -/
theorem C9_whitespace_category_aggregated_as_top_level :
    (∀ {α : Type} (v : ItemView α) (st : AggAcc α) (x : α) (c : String),
      v.catOf x = some c → jsTrim c = "" →
      aggStep v st x =
        { st with top := alPush st.top (workspaceKeyFromFolder (v.wfOf x)) x }) ∧
    (∀ {α : Type} (v : ItemView α) (st : AggAcc α) (x : α),
      v.catOf x = none →
      aggStep v st x =
        { st with top := alPush st.top (workspaceKeyFromFolder (v.wfOf x)) x }) := by
  constructor
  · intro α v st x c hc htrim
    apply aggStep_of_normCat_none
    simp [normCat, hc, htrim]
  · intro α v st x hc
    apply aggStep_of_normCat_none
    simp [normCat, hc]

/-- Witness for C9: a task with category `"  "` and a task with no category
are both placed in the top-level bucket of workspace `ws::w`, producing the
same bucket structure and no category data. -/
theorem C9_whitespace_category_aggregated_as_top_level_witness :
    (taskView.catOf tWs = some "  " ∧ jsTrim ("  ") = "" ∧
      aggStep taskView ⟨[], [], [], []⟩ tWs = ⟨[("ws::w", [tWs])], [], [], []⟩) ∧
    (taskView.catOf tNone = none ∧
      aggStep taskView ⟨[], [], [], []⟩ tNone =
        ⟨[("ws::w", [tNone])], [], [], []⟩) :=
  ⟨⟨rfl, rfl,
    (C9_whitespace_category_aggregated_as_top_level.1 taskView ⟨[], [], [], []⟩
      tWs "  " rfl rfl).trans (by decide)⟩,
   ⟨rfl,
    (C9_whitespace_category_aggregated_as_top_level.2 taskView ⟨[], [], [], []⟩
      tNone rfl).trans (by decide)⟩⟩

/-! ### Categorizer lemmas and claims C3, C4, C6, C7 -/

theorem firstRuleMatch_append_of_no_match (label : String)
    (pre rest : List CategoryRule)
    (h : ∀ r ∈ pre, jsRegexTestI r.pattern label ≠ some true) :
    firstRuleMatch label (pre ++ rest) = firstRuleMatch label rest := by
  induction pre with
  | nil => rfl
  | cons r rs ih =>
    have hr := h r (List.mem_cons_self r rs)
    have hrest : ∀ r' ∈ rs, jsRegexTestI r'.pattern label ≠ some true :=
      fun r' hr' => h r' (List.mem_cons_of_mem _ hr')
    cases ht : jsRegexTestI r.pattern label with
    | none => simp only [List.cons_append, firstRuleMatch, ht]; exact ih hrest
    | some b =>
      cases b with
      | true => exact absurd ht hr
      | false => simp only [List.cons_append, firstRuleMatch, ht]; exact ih hrest

theorem resolveTaskCategory_of_exact_fail (label : String)
    (rules : List CategoryRule) (byLabel : List (String × String))
    (hex : ∀ e, alGet byLabel label = some e → jsTrim e = "") :
    resolveTaskCategory label rules byLabel =
      (match firstRuleMatch label rules with
       | some c => some c
       | none => prefixCategory label) := by
  unfold resolveTaskCategory
  cases h : alGet byLabel label with
  | none => rfl
  | some e =>
    dsimp only
    rw [if_neg]
    intro hcon
    exact hcon.2 (hex e h)

theorem resolveLaunchCategory_of_exact_fail (name : String)
    (rules : List CategoryRule) (byLabel : List (String × String))
    (hex : ∀ e, alGet byLabel name = some e → jsTrim e = "") :
    resolveLaunchCategory name rules byLabel =
      (match firstRuleMatch name rules with
       | some c => some c
       | none => prefixCategory name) := by
  unfold resolveLaunchCategory
  cases h : alGet byLabel name with
  | none => rfl
  | some e =>
    dsimp only
    rw [if_neg]
    intro hcon
    exact hcon.2 (hex e h)

/-- C3 counterexample: the rule `(category "", pattern "b")` matches the
label `build`, its category is empty, and the categorizer stops there and
returns the empty category instead of falling through; falling through to
the rest of the rule list would have produced `X`. -/
theorem C3_counterexample_empty_rule_category_wins :
    resolveTaskCategory ("build") [⟨"", "b"⟩, ⟨"X", "build"⟩] [] = some "" ∧
    resolveTaskCategory ("build") [⟨"X", "build"⟩] [] = some "X" ∧
    jsRegexTestI ("b") ("build") = some true ∧ jsTrim ("") = "" := by
  decide

/-- C3 amended: only the exact-map step of the categorizer requires a
non-empty trimmed value to win.  The first rule (after any rules that fail
to compile or do not match) whose regex matches the label returns that
rule's `category` unconditionally — even when it is empty or
whitespace-only — and the categorizer does not fall through to later rules
or to the prefix fallback.  (Such a category is only neutralized later, by
the aggregation's trim-normalization.) -/
theorem C3_amended_matching_rule_category_returned_unconditionally
    (label : String) (byLabel : List (String × String))
    (pre post : List CategoryRule) (r : CategoryRule)
    (hex : ∀ e, alGet byLabel label = some e → jsTrim e = "")
    (hpre : ∀ r' ∈ pre, jsRegexTestI r'.pattern label ≠ some true)
    (hr : jsRegexTestI r.pattern label = some true) :
    resolveTaskCategory label (pre ++ r :: post) byLabel = some r.category ∧
    resolveLaunchCategory label (pre ++ r :: post) byLabel = some r.category := by
  have hfrm : firstRuleMatch label (pre ++ r :: post) = some r.category := by
    rw [firstRuleMatch_append_of_no_match label pre _ hpre]
    simp [firstRuleMatch, hr]
  constructor
  · rw [resolveTaskCategory_of_exact_fail label _ byLabel hex, hfrm]
  · rw [resolveLaunchCategory_of_exact_fail label _ byLabel hex, hfrm]

/-- Witness for the amended C3: the empty-category rule wins on `build`
even though the later rule also matches. -/
theorem C3_amended_matching_rule_category_returned_unconditionally_witness :
    resolveTaskCategory ("build") [⟨"", "b"⟩, ⟨"X", "build"⟩] [] = some "" ∧
    resolveLaunchCategory ("build") [⟨"", "b"⟩, ⟨"X", "build"⟩] [] = some "" := by
  have h := C3_amended_matching_rule_category_returned_unconditionally
    ("build") [] [] [⟨"X", "build"⟩] ⟨"", "b"⟩
    (by intro e he; simp [alGet] at he)
    (by intro r' hr'; cases hr')
    (by decide)
  exact ⟨h.1, h.2⟩

/-- C4: a present exact-map entry with non-empty trimmed value beats every
regex rule, in both categorizers. -/
theorem C4_exact_map_entry_beats_matching_rule (label : String)
    (rules : List CategoryRule) (byLabel : List (String × String)) (e : String)
    (hget : alGet byLabel label = some e) (hne : jsTrim e ≠ "")
    (_hrule : ∃ r ∈ rules, jsRegexTestI r.pattern label = some true) :
    resolveTaskCategory label rules byLabel = some (jsTrim e) ∧
    resolveLaunchCategory label rules byLabel = some (jsTrim e) := by
  have he : e ≠ "" := by
    intro h
    apply hne
    rw [h]
    rfl
  constructor
  · simp only [resolveTaskCategory, hget]
    rw [if_pos ⟨he, hne⟩]
  · simp only [resolveLaunchCategory, hget]
    rw [if_pos ⟨he, hne⟩]

/-- Witness for C4 at the spec's example: label `build`, exact map
`build ↦ Build`, rule `(category Other, pattern b.*)` whose regex matches;
the result is `Build`. -/
theorem C4_exact_map_entry_beats_matching_rule_witness :
    alGet [("build", "Build")] ("build") = some "Build" ∧
    jsTrim ("Build") ≠ "" ∧
    (∃ r ∈ [CategoryRule.mk "Other" "b.*"],
      jsRegexTestI r.pattern ("build") = some true) ∧
    resolveTaskCategory ("build") [CategoryRule.mk "Other" "b.*"]
      [("build", "Build")] = some "Build" ∧
    resolveLaunchCategory ("build") [CategoryRule.mk "Other" "b.*"]
      [("build", "Build")] = some "Build" := by
  have h := C4_exact_map_entry_beats_matching_rule ("build")
    [CategoryRule.mk "Other" "b.*"] [("build", "Build")] "Build"
    (by decide) (by decide)
    ⟨CategoryRule.mk "Other" "b.*", by decide, by decide⟩
  exact ⟨by decide, by decide, ⟨CategoryRule.mk "Other" "b.*", by decide, by decide⟩,
    h.1, h.2⟩

/-- C6: with no usable exact-map entry and no compiling-and-matching rule,
both categorizers return exactly the prefix fallback: the trimmed text
before the label's first colon when the leading `prefix:`-pattern matches,
and `none` (top-level) otherwise. -/
theorem C6_prefix_fallback (label : String) (rules : List CategoryRule)
    (byLabel : List (String × String))
    (hex : ∀ e, alGet byLabel label = some e → jsTrim e = "")
    (hrules : ∀ r ∈ rules, jsRegexTestI r.pattern label ≠ some true) :
    resolveTaskCategory label rules byLabel = prefixCategory label ∧
    resolveLaunchCategory label rules byLabel = prefixCategory label := by
  have hfrm : firstRuleMatch label rules = none := by
    have h := firstRuleMatch_append_of_no_match label rules [] hrules
    simpa using h
  constructor
  · rw [resolveTaskCategory_of_exact_fail label rules byLabel hex, hfrm]
  · rw [resolveLaunchCategory_of_exact_fail label rules byLabel hex, hfrm]

/-- Witness for C6 at the spec's example `DB: migrate` (prefix fallback
produces `DB`) and at `xyz` (no colon, so no category). -/
theorem C6_prefix_fallback_witness :
    resolveTaskCategory ("DB: migrate") [] [] = prefixCategory ("DB: migrate") ∧
    prefixCategory ("DB: migrate") = some "DB" ∧
    resolveLaunchCategory ("DB: migrate") [] [] = some "DB" ∧
    resolveTaskCategory ("xyz") [] [] = none ∧
    prefixCategory ("xyz") = none := by
  have h1 := C6_prefix_fallback ("DB: migrate") [] []
    (by intro e he; simp [alGet] at he) (by intro r hr; cases hr)
  have h2 := C6_prefix_fallback ("xyz") [] []
    (by intro e he; simp [alGet] at he) (by intro r hr; cases hr)
  exact ⟨h1.1, by decide, h1.2.trans (by decide), h2.1.trans (by decide), by decide⟩

/-- C7: a rule whose pattern does not compile is skipped, and both
categorizers behave exactly as if the rule were absent; the embedding is a
total function, so no error is raised. -/
theorem C7_invalid_rule_pattern_skipped (label : String)
    (byLabel : List (String × String)) (pre post : List CategoryRule)
    (bad : CategoryRule) (hbad : parseRegexAux bad.pattern.toList = none) :
    resolveTaskCategory label (pre ++ bad :: post) byLabel =
      resolveTaskCategory label (pre ++ post) byLabel ∧
    resolveLaunchCategory label (pre ++ bad :: post) byLabel =
      resolveLaunchCategory label (pre ++ post) byLabel := by
  have hbad' : parseRegexAux bad.pattern.data = none := hbad
  have hbadtest : jsRegexTestI bad.pattern label = none := by
    simp [jsRegexTestI, hbad']
  have hfrm : firstRuleMatch label (pre ++ bad :: post) =
      firstRuleMatch label (pre ++ post) := by
    induction pre with
    | nil => simp [firstRuleMatch, hbadtest]
    | cons r rs ih =>
      cases ht : jsRegexTestI r.pattern label with
      | none => simp only [List.cons_append, firstRuleMatch, ht]; exact ih
      | some b =>
        cases b with
        | true => simp only [List.cons_append, firstRuleMatch, ht]
        | false => simp only [List.cons_append, firstRuleMatch, ht]; exact ih
  constructor
  · unfold resolveTaskCategory
    cases h : alGet byLabel label <;> rw [hfrm]
  · unfold resolveLaunchCategory
    cases h : alGet byLabel label <;> rw [hfrm]

/-- Witness for C7: the pattern `(` does not compile; prepending that rule
to a rule list does not change the categorizer's result. -/
theorem C7_invalid_rule_pattern_skipped_witness :
    parseRegexAux ("(").toList = none ∧
    resolveTaskCategory ("alpha") [⟨"Nope", "("⟩, ⟨"Hit", "a"⟩] [] =
      resolveTaskCategory ("alpha") [⟨"Hit", "a"⟩] [] ∧
    resolveTaskCategory ("alpha") [⟨"Hit", "a"⟩] [] = some "Hit" ∧
    resolveLaunchCategory ("alpha") [⟨"Nope", "("⟩, ⟨"Hit", "a"⟩] [] = some "Hit" := by
  have h := C7_invalid_rule_pattern_skipped ("alpha") [] [] [⟨"Hit", "a"⟩]
    ⟨"Nope", "("⟩ (by decide)
  exact ⟨by decide, h.1, by decide, h.2.trans (by decide)⟩

/-! ### Loader lemmas and claims C5, C8 -/

theorem loadWorkspaceLaunches_eq (rules : List CategoryRule)
    (byLabel : List (String × String))
    (wfs : List (String × Option (List RawLaunch))) :
    loadWorkspaceLaunches rules byLabel wfs =
      (wfs.filterMap (fun p => p.2.map (fun _ => mkLaunchSource p.1)),
       (wfs.map (fun p =>
         match p.2 with
         | none => []
         | some configs => configs.filterMap (mkLaunchItem rules byLabel p.1))).flatten) := by
  have key : ∀ (acc : List SourceRef × List LaunchItem),
      wfs.foldl (fun acc p =>
        match p.2 with
        | none => acc
        | some configs =>
          (acc.1 ++ [mkLaunchSource p.1],
           acc.2 ++ configs.filterMap (mkLaunchItem rules byLabel p.1))) acc =
      (acc.1 ++ wfs.filterMap (fun p => p.2.map (fun _ => mkLaunchSource p.1)),
       acc.2 ++ (wfs.map (fun p =>
         match p.2 with
         | none => []
         | some configs => configs.filterMap (mkLaunchItem rules byLabel p.1))).flatten) := by
    induction wfs with
    | nil => intro acc; simp
    | cons q rest ih =>
      intro acc
      obtain ⟨wf, doc⟩ := q
      cases doc with
      | none => simp [ih]
      | some configs => simp [ih, List.append_assoc]
  have h := key ([], [])
  simpa [loadWorkspaceLaunches] using h

theorem loadWorkspaceTasks_eq (rules : List CategoryRule)
    (byLabel : List (String × String))
    (wfs : List (String × Option (List RawTask))) :
    loadWorkspaceTasks rules byLabel wfs =
      (wfs.filterMap (fun p => p.2.map (fun _ => mkTaskSource p.1)),
       (wfs.map (fun p =>
         match p.2 with
         | none => []
         | some ts => ts.filterMap (mkTaskItem rules byLabel p.1))).flatten) := by
  have key : ∀ (acc : List SourceRef × List TaskItem),
      wfs.foldl (fun acc p =>
        match p.2 with
        | none => acc
        | some ts =>
          (acc.1 ++ [mkTaskSource p.1],
           acc.2 ++ ts.filterMap (mkTaskItem rules byLabel p.1))) acc =
      (acc.1 ++ wfs.filterMap (fun p => p.2.map (fun _ => mkTaskSource p.1)),
       acc.2 ++ (wfs.map (fun p =>
         match p.2 with
         | none => []
         | some ts => ts.filterMap (mkTaskItem rules byLabel p.1))).flatten) := by
    induction wfs with
    | nil => intro acc; simp
    | cons q rest ih =>
      intro acc
      obtain ⟨wf, doc⟩ := q
      cases doc with
      | none => simp [ih]
      | some ts => simp [ih, List.append_assoc]
  have h := key ([], [])
  simpa [loadWorkspaceTasks] using h

/-- C5 counterexample: a workspace `launch.json` that parses to a one-entry
`configurations` array whose entry has an empty name yields zero items, yet
its `SourceRef` is still created (the loader pushes the source before
scanning entries). -/
theorem C5_counterexample_source_created_with_zero_items :
    (loadWorkspaceLaunches [] [] [("w", some [⟨some "", none⟩])]).1 =
      [mkLaunchSource ("w")] ∧
    (loadWorkspaceLaunches [] [] [("w", some [⟨some "", none⟩])]).2 = [] := by
  decide

/-- C5 amended: a `SourceRef` is created exactly once per document/workspace
combination whose document was read, parsed and exposes the expected
configuration array — even when zero entries survive the non-empty-name
check — and every item produced from such a document references that
document's `SourceRef`.  (Documents that fail to read/parse contribute
neither a source nor items.) -/
theorem C5_amended_source_per_parsed_document
    (rules : List CategoryRule) (byLabel : List (String × String))
    (lwfs : List (String × Option (List RawLaunch)))
    (twfs : List (String × Option (List RawTask))) :
    (loadWorkspaceLaunches rules byLabel lwfs).1 =
      lwfs.filterMap (fun p => p.2.map (fun _ => mkLaunchSource p.1)) ∧
    (∀ l ∈ (loadWorkspaceLaunches rules byLabel lwfs).2,
      ∃ wf configs, (wf, some configs) ∈ lwfs ∧ l.source = mkLaunchSource wf ∧
        l.source ∈ (loadWorkspaceLaunches rules byLabel lwfs).1) ∧
    (loadWorkspaceTasks rules byLabel twfs).1 =
      twfs.filterMap (fun p => p.2.map (fun _ => mkTaskSource p.1)) ∧
    (∀ t ∈ (loadWorkspaceTasks rules byLabel twfs).2,
      ∃ wf ts, (wf, some ts) ∈ twfs ∧ t.source = mkTaskSource wf ∧
        t.source ∈ (loadWorkspaceTasks rules byLabel twfs).1) := by
  rw [loadWorkspaceLaunches_eq, loadWorkspaceTasks_eq]
  refine ⟨rfl, ?_, rfl, ?_⟩
  · intro l hl
    simp only [List.mem_flatten, List.mem_map] at hl
    obtain ⟨xs, ⟨p, hp, hpx⟩, hlx⟩ := hl
    obtain ⟨wf, doc⟩ := p
    cases doc with
    | none => subst hpx; cases hlx
    | some configs =>
      subst hpx
      simp only [List.mem_filterMap] at hlx
      obtain ⟨c, _, hc⟩ := hlx
      have hsrc : l.source = mkLaunchSource wf := by
        unfold mkLaunchItem at hc
        dsimp only at hc
        split at hc
        · cases hc
        · cases hc; rfl
      refine ⟨wf, configs, hp, hsrc, ?_⟩
      simp only [List.mem_filterMap]
      exact ⟨(wf, some configs), hp, by simp [hsrc]⟩
  · intro t ht
    simp only [List.mem_flatten, List.mem_map] at ht
    obtain ⟨xs, ⟨p, hp, hpx⟩, htx⟩ := ht
    obtain ⟨wf, doc⟩ := p
    cases doc with
    | none => subst hpx; cases htx
    | some ts =>
      subst hpx
      simp only [List.mem_filterMap] at htx
      obtain ⟨c, _, hc⟩ := htx
      have hsrc : t.source = mkTaskSource wf := by
        unfold mkTaskItem at hc
        dsimp only at hc
        split at hc
        · cases hc
        · cases hc; rfl
      refine ⟨wf, ts, hp, hsrc, ?_⟩
      simp only [List.mem_filterMap]
      exact ⟨(wf, some ts), hp, by simp [hsrc]⟩

/-- A concrete loaded launch item used by the C5 witness. -/
def lgoItem : LaunchItem :=
  ⟨"launch::w/.vscode/launch.json::go", "go", none, some "w", mkLaunchSource "w"⟩

/-- Witness for the amended C5 at a document with one kept entry and one
dropped entry. -/
theorem C5_amended_source_per_parsed_document_witness :
    (loadWorkspaceLaunches [] [] [("w", some [⟨some "go", none⟩, ⟨some "", none⟩])]).1 =
      [mkLaunchSource ("w")] ∧
    (∃ wf configs,
      (wf, some configs) ∈
        [(("w" : String), some [RawLaunch.mk (some "go") none,
          RawLaunch.mk (some "") none])] ∧
      lgoItem.source = mkLaunchSource wf ∧
      lgoItem.source ∈
        (loadWorkspaceLaunches [] []
          [("w", some [⟨some "go", none⟩, ⟨some "", none⟩])]).1) := by
  have h := C5_amended_source_per_parsed_document [] []
    [("w", some [⟨some "go", none⟩, ⟨some "", none⟩])] []
  exact ⟨h.1.trans (by decide), h.2.1 lgoItem (by decide)⟩

/-- C8: a workspace document entry whose name/label is missing or trims to
the empty string is dropped, and every other entry of the same document is
loaded: the display names of the produced items are exactly the non-empty
trimmed names of the document's entries, in order, for every document. -/
theorem C8_empty_names_dropped_rest_loaded (rules : List CategoryRule)
    (byLabel : List (String × String))
    (lwfs : List (String × Option (List RawLaunch)))
    (twfs : List (String × Option (List RawTask))) :
    ((loadWorkspaceLaunches rules byLabel lwfs).2.map (fun l => l.name)) =
      (lwfs.map (fun p =>
        match p.2 with
        | none => []
        | some configs => configs.filterMap (fun c =>
            if launchEntryName c = "" then none else some (launchEntryName c)))).flatten ∧
    ((loadWorkspaceTasks rules byLabel twfs).2.map (fun t => t.label)) =
      (twfs.map (fun p =>
        match p.2 with
        | none => []
        | some ts => ts.filterMap (fun t =>
            if jsTrim (t.label.getD "") = "" then none
            else some (jsTrim (t.label.getD ""))))).flatten := by
  rw [loadWorkspaceLaunches_eq, loadWorkspaceTasks_eq]
  constructor
  · rw [List.map_flatten, List.map_map]
    apply congrArg List.flatten
    apply List.map_congr_left
    intro p _
    cases hd : p.2 with
    | none => simp [Function.comp, hd]
    | some configs =>
      simp only [Function.comp_apply, hd, List.map_filterMap]
      apply List.filterMap_congr
      intro c _
      unfold mkLaunchItem
      dsimp only
      split
      · rfl
      · rfl
  · rw [List.map_flatten, List.map_map]
    apply congrArg List.flatten
    apply List.map_congr_left
    intro p _
    cases hd : p.2 with
    | none => simp [Function.comp, hd]
    | some ts =>
      simp only [Function.comp_apply, hd, List.map_filterMap]
      apply List.filterMap_congr
      intro t _
      unfold mkTaskItem
      dsimp only
      split
      · rfl
      · rfl

/-! ### Filter layer: claim C1 -/

theorem any_map' {β γ : Type} (f : β → γ) (l : List β) (p : γ → Bool) :
    (l.map f).any p = l.any (fun b => p (f b)) := by
  induction l with
  | nil => rfl
  | cons b rest ih => simp [ih]

theorem if_then_true_else (c y : Bool) :
    (if c = true then true else y) = (c || y) := by
  cases c <;> simp

theorem any_flattenWith {β γ : Type} (g : β → List γ) (m : List (String × β))
    (p : γ → Bool) :
    (flattenWith g m).any p = m.any (fun q => (g q.2).any p) := by
  induction m with
  | nil => rfl
  | cons q rest ih =>
    obtain ⟨k, v⟩ := q
    simp [flattenWith_cons, List.any_append, ih]

/-- All launch names the part_000 filter scan consults for a workspace:
the top-level launches and the categorized launch buckets. -/
def launchNamesOf (st : TreeState) (wk : String) : List String :=
  (topLookup st.topLevelLaunchesByWorkspace wk).map (fun i => i.name) ++
    (flattenWith (flattenWith id)
      ((alGet st.launchesByWorkspaceCategorySource wk).getD [])).map (fun i => i.name)

/-- The categorized task labels of a workspace (the leaves of
`tasksByWorkspaceCategorySource`). -/
def catTaskLabelsOf (st : TreeState) (wk : String) : List String :=
  (flattenWith (flattenWith id)
    ((alGet st.tasksByWorkspaceCategorySource wk).getD [])).map (fun t => t.label)

/-- The top-level (uncategorized) task labels of a workspace. -/
def topTaskLabelsOf (st : TreeState) (wk : String) : List String :=
  (topLookup st.topLevelTasksByWorkspace wk).map (fun t => t.label)

/-- All task labels of a workspace: top-level and categorized. -/
def allTaskLabelsOf (st : TreeState) (wk : String) : List String :=
  topTaskLabelsOf st wk ++ catTaskLabelsOf st wk

/-- The notebook names of a workspace. -/
def notebookNamesOf (st : TreeState) (wk : String) : List String :=
  (topLookup st.notebooksByWorkspace wk).map (fun n => n.name)

/-- C1 counterexample: a refresh over a single uncategorized task labelled
`alpha` in workspace `w` yields a state in which the label `alpha` is a task
label of workspace `ws::w` containing the (nonempty) filter `alpha`, yet
`workspaceHasMatches` returns `false` — the claimed scan of top-level task
labels does not happen. -/
theorem C1_counterexample_top_level_task_not_scanned :
    workspaceHasMatches (refreshModel lcConst [] [tTop] []) ("ws::w") ("alpha") = false ∧
    (allTaskLabelsOf (refreshModel lcConst [] [tTop] []) ("ws::w")).any
      (fun l => jsIncludes (jsToLower l) ("alpha")) = true ∧
    ("alpha" : String) ≠ "" := by
  decide

/-- C1 amended: for every provider state, workspace key and filter,
`workspaceHasMatches` is true iff the filter is empty, or some launch name
(top-level or categorized), some *categorized* task label, or some notebook
name of the workspace contains the filter in its lowercased form; top-level
(uncategorized) task labels are not consulted. -/
theorem C1_amended_workspaceHasMatches_characterization (st : TreeState)
    (wk f : String) :
    workspaceHasMatches st wk f = true ↔
      (f = "" ∨
        ((launchNamesOf st wk).any (fun n => jsIncludes (jsToLower n) f) = true) ∨
        ((catTaskLabelsOf st wk).any (fun l => jsIncludes (jsToLower l) f) = true) ∨
        ((notebookNamesOf st wk).any (fun n => jsIncludes (jsToLower n) f) = true)) := by
  by_cases hf : f = ""
  · simp [workspaceHasMatches, hf]
  · simp only [workspaceHasMatches, workspaceHasLaunchMatches, if_neg hf,
      launchNamesOf, catTaskLabelsOf, notebookNamesOf, topTaskLabelsOf,
      topLookup, List.any_append, any_map', any_flattenWith, id_eq,
      if_then_true_else]
    simp [hf, Bool.or_eq_true, or_assoc]

/-! ### Sorting: claim C10 -/

theorem sorted_jsSortBy {α : Type} (le : α → α → Bool)
    (ht : ∀ a b, le a b = true ∨ le b a = true)
    (htr : ∀ a b c, le a b = true → le b c = true → le a c = true)
    (xs : List α) : (jsSortBy le xs).Sorted (fun a b => le a b = true) := by
  haveI : IsTotal α (fun a b => le a b = true) := ⟨ht⟩
  haveI : IsTrans α (fun a b => le a b = true) := ⟨htr⟩
  exact List.sorted_insertionSort _ xs

/-- C10: when the comparator's keep-order relation is total and transitive
(as `localeCompare`'s is), every ordered list produced for display is sorted
ascending by it: the top-level items of each workspace, the category names
of each workspace, the source refs of each (workspace, category) (by source
label), the items of each (workspace, category, source) bucket (all as
produced by the sorting passes of `refresh`), and the flattened per-category
item list computed for a category node by `getChildren`. -/
theorem C10_display_lists_sorted {α : Type} (lc : String → String → Ordering)
    (key : α → String) (st : AggAcc α)
    (ht : ∀ a b : String, lcLe lc a b = true ∨ lcLe lc b a = true)
    (htr : ∀ a b c : String,
      lcLe lc a b = true → lcLe lc b c = true → lcLe lc a c = true) :
    (∀ wk xs, alGet (finalize lc key st).top wk = some xs →
      xs.Sorted (fun a b => lcLe lc (key a) (key b) = true)) ∧
    (∀ wk cs, alGet (finalize lc key st).cats wk = some cs →
      cs.Sorted (fun a b => lcLe lc a b = true)) ∧
    (∀ wk cm c srcs, alGet (finalize lc key st).catSources wk = some cm →
      alGet cm c = some srcs →
      srcs.Sorted (fun a b => lcLe lc a.label b.label = true)) ∧
    (∀ wk c s, (nestedLookup (finalize lc key st).byWkCatSrc wk c s).Sorted
      (fun a b => lcLe lc (key a) (key b) = true)) ∧
    (∀ (m : Nest3 (List α)) wk c fl, (categoryChildren lc key m wk c fl).Sorted
      (fun a b => lcLe lc (key a) (key b) = true)) := by
  have htK : ∀ a b : α, lcLe lc (key a) (key b) = true ∨
      lcLe lc (key b) (key a) = true := fun a b => ht (key a) (key b)
  have htrK : ∀ a b c : α, lcLe lc (key a) (key b) = true →
      lcLe lc (key b) (key c) = true → lcLe lc (key a) (key c) = true :=
    fun a b c h1 h2 => htr (key a) (key b) (key c) h1 h2
  refine ⟨?_, ?_, ?_, ?_, ?_⟩
  · intro wk xs h
    rw [show (finalize lc key st).top =
        mapSnd (jsSortBy (fun a b => lcLe lc (key a) (key b))) st.top from rfl,
      alGet_mapSnd] at h
    obtain ⟨ys, _, rfl⟩ := Option.map_eq_some'.mp h
    exact sorted_jsSortBy _ htK htrK ys
  · intro wk cs h
    rw [show (finalize lc key st).cats = mapSnd (jsSortBy (lcLe lc)) st.cats
        from rfl, alGet_mapSnd] at h
    obtain ⟨ys, _, rfl⟩ := Option.map_eq_some'.mp h
    exact sorted_jsSortBy _ ht htr ys
  · intro wk cm c srcs h1 h2
    rw [show (finalize lc key st).catSources =
        mapSnd (mapSnd (fun srcMap =>
          jsSortBy (fun a b => lcLe lc a.label b.label)
            (srcMap.map (fun q => q.2)))) st.catSources from rfl,
      alGet_mapSnd] at h1
    obtain ⟨cm0, _, rfl⟩ := Option.map_eq_some'.mp h1
    rw [alGet_mapSnd] at h2
    obtain ⟨sm0, _, rfl⟩ := Option.map_eq_some'.mp h2
    exact sorted_jsSortBy _ (fun (a b : SourceRef) => ht a.label b.label)
      (fun (a b c : SourceRef) h1 h2 => htr a.label b.label c.label h1 h2) _
  · intro wk c s
    rw [nestedLookup_finalize]
    exact sorted_jsSortBy _ htK htrK _
  · intro m wk c fl
    unfold categoryChildren
    exact sorted_jsSortBy _ htK htrK _

/-- Witness for C10 at a concrete aggregation of two tasks under the
constant comparator (whose keep-order relation is trivially total and
transitive). -/
theorem C10_display_lists_sorted_witness :
    List.Sorted (fun a b : TaskItem => lcLe lcConst a.label b.label = true)
      (nestedLookup (finalize lcConst (fun t => t.label)
        (aggregate taskView [tTop, tCat])).byWkCatSrc ("ws::w") ("Build")
        ("task::w/.vscode/tasks.json")) ∧
    List.Sorted (fun a b : TaskItem => lcLe lcConst a.label b.label = true)
      (categoryChildren lcConst (fun t => t.label)
        (finalize lcConst (fun t => t.label)
          (aggregate taskView [tTop, tCat])).byWkCatSrc ("ws::w") ("Build") ("")) := by
  have h := C10_display_lists_sorted lcConst (fun t => t.label)
    (aggregate taskView [tTop, tCat]) (fun a b => Or.inl rfl)
    (fun a b c h1 h2 => rfl)
  exact ⟨h.2.2.2.1 ("ws::w") ("Build") ("task::w/.vscode/tasks.json"),
    h.2.2.2.2 (finalize lcConst (fun t => t.label)
      (aggregate taskView [tTop, tCat])).byWkCatSrc ("ws::w") ("Build") ("")⟩

end BetterRun
